import Mathlib

/-!
Verification development for an ASPX-to-Blazor converter (`src/main.py`).

The embedding models:
  * the two regex scans of the code-behind extractor `parse_cs`
    (`public <Type> <Name>;` fields and
    `protected void <Name>(object sender, EventArgs e)` handlers),
  * the markup tree and the tree passes of `parse_aspx`
    (tag-identity restoration, `<form runat="server">` unwrapping),
  * the rewriting pass `convert_to_blazor` (tag replacement, attribute
    renames, binding-field synthesis with dedup, onclick event binding,
    onclientclick fallback), including the `KeyError` raised when a
    mapping has no `"event"` entry,
  * the assembler `save_blazor_file` and the per-batch loop of
    `open_file` (route derivation, continue-on-parse-failure).

HTML parsing itself (BeautifulSoup with `html.parser`) is the embedding
boundary: trees enter the model already parsed, with tag and attribute
names lowercased, which is the documented behaviour of that parser.
Failure of `convert_to_blazor` (a raised exception) is modelled as
`Option.none`.
-/

namespace Aspx2Blazor

/-- Python `\s` on the ASCII range: the whitespace class used by
`re` patterns and by `str.strip` in the source. -/
def isWs (c : Char) : Bool :=
  c = ' ' || c = '\t' || c = '\n' || c = '\x0d' || c = '\x0b' || c = '\x0c'

/-- Python `\w` on the ASCII range: letters, digits and underscore. -/
def isWord (c : Char) : Bool :=
  c.isAlpha || c.isDigit || c = '_'

/-- Consume an exact literal from the front of the input, as a regex
literal does; `none` when the input does not start with it. -/
def dropLit : List Char → List Char → Option (List Char)
  | [], s => some s
  | _ :: _, [] => none
  | c :: l, d :: s => if c = d then dropLit l s else none

/-- Consume one-or-more whitespace characters (`\s+`), maximal munch.
In every pattern of the source the character after `\s+` is never
whitespace, so maximal munch coincides with regex backtracking. -/
def ws1 : List Char → Option (List Char)
  | [] => none
  | c :: rest => if isWs c then some (rest.dropWhile isWs) else none

/-- Consume zero-or-more whitespace characters (`\s*`). -/
def ws0 (s : List Char) : List Char := s.dropWhile isWs

/-- Capture one-or-more word characters (`(\w+)`), maximal munch.
In every pattern of the source the character after `\w+` is never a
word character, so maximal munch coincides with regex backtracking. -/
def word1 : List Char → Option (List Char × List Char)
  | [] => none
  | c :: rest =>
    if isWord c then some (c :: rest.takeWhile isWord, rest.dropWhile isWord)
    else none

/-- Match `public\s+(\w+)\s+(\w+);` at the current position, returning
the two captures and the rest of the input (the field pattern of
`parse_cs`). -/
def matchField (s : List Char) : Option ((List Char × List Char) × List Char) :=
  match dropLit "public".data s with
  | none => none
  | some s1 =>
    match ws1 s1 with
    | none => none
    | some s2 =>
      match word1 s2 with
      | none => none
      | some (typ, s3) =>
        match ws1 s3 with
        | none => none
        | some s4 =>
          match word1 s4 with
          | none => none
          | some (name, s5) =>
            match dropLit ";".data s5 with
            | none => none
            | some s6 => some ((typ, name), s6)

/-- Match `protected\s+void\s+(\w+)\(object\s+sender,\s*EventArgs\s+e\)`
at the current position (the handler pattern of `parse_cs`). -/
def matchEvent (s : List Char) : Option (List Char × List Char) :=
  match dropLit "protected".data s with
  | none => none
  | some s1 =>
    match ws1 s1 with
    | none => none
    | some s2 =>
      match dropLit "void".data s2 with
      | none => none
      | some s3 =>
        match ws1 s3 with
        | none => none
        | some s4 =>
          match word1 s4 with
          | none => none
          | some (name, s5) =>
            match dropLit "(object".data s5 with
            | none => none
            | some s6 =>
              match ws1 s6 with
              | none => none
              | some s7 =>
                match dropLit "sender,".data s7 with
                | none => none
                | some s8 =>
                  match dropLit "EventArgs".data (ws0 s8) with
                  | none => none
                  | some s9 =>
                    match ws1 s9 with
                    | none => none
                    | some s10 =>
                      match dropLit "e)".data s10 with
                      | none => none
                      | some s11 => some (name, s11)

/-- Match `public\s+\w+\s+(\w+)` anchored at the start (the
`re.match` used by `convert_to_blazor` to read a declaration's name
out of an already-generated property string). -/
def matchSeedName (s : List Char) : Option (List Char) :=
  match dropLit "public".data s with
  | none => none
  | some s1 =>
    match ws1 s1 with
    | none => none
    | some s2 =>
      match word1 s2 with
      | none => none
      | some (_, s3) =>
        match ws1 s3 with
        | none => none
        | some s4 =>
          match word1 s4 with
          | none => none
          | some (name, _) => some name

/-- Fuel-driven `re.findall`: try the matcher at every position, left to
right, resuming after the end of each (non-overlapping) match.  Every
matcher used consumes at least one character, so fuel `s.length` is
always sufficient. -/
def scanAll {α : Type} (fuel : Nat) (m : List Char → Option (α × List Char)) :
    List Char → List α
  | [] => []
  | c :: cs =>
    match fuel with
    | 0 => []
    | Nat.succ f =>
      match m (c :: cs) with
      | some (a, rest) => a :: scanAll f m rest
      | none => scanAll f m cs

/-- Python `str.strip()`: remove leading and trailing whitespace. -/
def pyStrip (s : String) : String :=
  String.mk (((s.data.dropWhile isWs).reverse.dropWhile isWs).reverse)

/-- Python `str.lower()` on the ASCII range: lowercase every
character. -/
def pyLower (s : String) : String := String.mk (s.data.map Char.toLower)

/-- Python `str.startswith(pre)`. -/
def pyStartsWith (s pre : String) : Bool :=
  decide (s.data.take pre.data.length = pre.data)

/-- The test `re.fullmatch(r"[A-Za-z_]\w*", candidate)` of
`convert_to_blazor`: a syntactically valid C# identifier. -/
def isIdent (s : String) : Bool :=
  match s.data with
  | [] => false
  | c :: rest => (c.isAlpha || c = '_') && rest.all isWord

/-- The generated property body for a field extracted from the
code-behind: `public <Type> <Name> { get; set; }`. -/
def fieldBody (typ name : String) : String :=
  "public " ++ typ ++ " " ++ name ++ " \x7b get; set; \x7d"

/-- The generated event stub:
`private void <Name>() { /* Converted event logic */ }`. -/
def eventStub (name : String) : String :=
  "private void " ++ name ++ "() \x7b /* Converted event logic */ \x7d"

/-- The property body synthesized by `convert_to_blazor` for a binding
value: `public string <val> { get; set; }` (the type is always
`string`). -/
def synthBody (val : String) : String :=
  "public string " ++ val ++ " \x7b get; set; \x7d"

/-- Insert into an insertion-ordered dictionary: an existing key keeps
its position and gets the new value, a new key is appended (Python
`dict` assignment). -/
def dictSet (k v : String) : List (String × String) → List (String × String)
  | [] => [(k, v)]
  | p :: rest => if p.1 = k then (k, v) :: rest else p :: dictSet k v rest

/-- Delete a key from a dictionary (`del d[k]`); absent keys are a
no-op, matching the guarded deletes of the source. -/
def dictDel (k : String) (d : List (String × String)) : List (String × String) :=
  d.filter (fun p => ¬ p.1 = k)

/-- Dictionary lookup (`d.get(k)` / `d[k]` where the source has already
checked membership). -/
def dictGet? (k : String) (d : List (String × String)) : Option String :=
  (d.find? (fun p => p.1 = k)).map (fun p => p.2)

/-- Key membership (`k in d`). -/
def hasKey (k : String) (d : List (String × String)) : Bool :=
  d.any (fun p => p.1 = k)

/-- `parse_cs`, given whether the code-behind file exists and its text:
the field scan builds property strings, the handler scan builds the
event dictionary (later duplicates overwrite, keeping first position,
as Python dict assignment does). -/
def parse_cs (exists_ : Bool) (code : String) :
    List (String × String) × List String :=
  if exists_ then
    let cs := code.data
    let props := (scanAll cs.length matchField cs).map
      (fun p => fieldBody (String.mk p.1) (String.mk p.2))
    let names := (scanAll cs.length matchEvent cs).map String.mk
    let events := names.foldl (fun d n => dictSet n (eventStub n) d) []
    (events, props)
  else ([], [])

/-- A node of the BeautifulSoup tree: an element with a tag name, an
insertion-ordered attribute dictionary and children, or a text node. -/
inductive Node where
  | elem (name : String) (attrs : List (String × String)) (children : List Node)
  | text (s : String)

/-- One entry of `element_mapping`: output tag, attribute renames,
optional fixed `type` attribute, optional event attribute. -/
structure CtrlMap where
  tag : String
  attributes : List (String × String)
  type? : Option String
  event? : Option String
deriving DecidableEq

/-- The `element_mapping` table of the source, in its order. -/
def element_mapping : List (String × CtrlMap) :=
  [ ("asp:Button", ⟨"button", [("Text", "@bind-Value")], none, some "@onclick"⟩),
    ("asp:TextBox", ⟨"input", [("Text", "@bind-Value")], none, none⟩),
    ("asp:Label", ⟨"span", [("Text", "@bind-Value")], none, none⟩),
    ("asp:DropDownList", ⟨"select", [("SelectedValue", "@bind-Value")], none, none⟩),
    ("asp:CheckBox", ⟨"input", [("Checked", "@bind-Value")], some "checkbox", none⟩),
    ("asp:RadioButton", ⟨"input", [("Checked", "@bind-Value")], some "radio", none⟩),
    ("asp:HyperLink", ⟨"a", [("NavigateUrl", "href")], none, none⟩),
    ("asp:Image", ⟨"img", [("ImageUrl", "src")], none, none⟩) ]

/-- Exact-key lookup `element_mapping[tag]` (used after the guard
`tag in element_mapping`). -/
def lookupMap (n : String) : Option CtrlMap :=
  (element_mapping.find? (fun p => p.1 = n)).map (fun p => p.2)

/-- The keys of `element_mapping`. -/
def mappingKeys : List String := element_mapping.map (fun p => p.1)

/-- Tag-identity restoration of `parse_aspx`: a lowercased tag name
that case-insensitively matches a mapping key is renamed back to the
canonical key. -/
def restoreName (n : String) : String :=
  match mappingKeys.find? (fun k => pyLower k = n) with
  | some k => k
  | none => n

/-- Apply `restoreName` over the whole tree. -/
def restoreTags : List Node → List Node
  | [] => []
  | Node.text s :: rest => Node.text s :: restoreTags rest
  | Node.elem n a c :: rest =>
    Node.elem (restoreName n) a (restoreTags c) :: restoreTags rest

/-- The unwrap loop of `parse_aspx`: every `form` whose `runat`
attribute lowercases to `"server"` is removed and its children are
spliced into its former position, in order.  Iterating `unwrap` over
the document-ordered `find_all("form")` list is equivalent to this
single recursive pass. -/
def unwrapForms : List Node → List Node
  | [] => []
  | Node.text s :: rest => Node.text s :: unwrapForms rest
  | Node.elem n a c :: rest =>
    if n = "form" && pyLower ((dictGet? "runat" a).getD "") = "server" then
      unwrapForms c ++ unwrapForms rest
    else
      Node.elem n a (unwrapForms c) :: unwrapForms rest

/-- The tree-rewriting part of `parse_aspx` (after reading and
directive-stripping, which precede parsing and are outside the tree
model): restore tag identities, then unwrap server forms. -/
def parse_aspx_tree (ns : List Node) : List Node :=
  unwrapForms (restoreTags ns)

/-- The mutable state threaded through `convert_to_blazor`: the
`class_props` list (extended in place) and the `seen_props` set
(modelled as a list; only membership is used). -/
structure ConvSt where
  props : List String
  seen : List String
deriving DecidableEq

/-- The initial `seen_props` set: names regex-extracted from the
incoming property strings. -/
def initSeen (props : List String) : List String :=
  props.filterMap (fun p => (matchSeedName p.data).map String.mk)

/-- The attribute-rename loop of `convert_to_blazor`: for each
`(aspAttr, target)` of the mapping, pop the lowercased legacy name if
present, store its value under the target name, and when the target is
a `@bind` attribute whose value is unseen, append a synthesized
property and mark the value seen. -/
def processRenames : List (String × String) →
    List (String × String) → ConvSt → List (String × String) × ConvSt
  | [], a, st => (a, st)
  | (aspAttr, target) :: rest, a, st =>
    match dictGet? (pyLower aspAttr) a with
    | none => processRenames rest a st
    | some val =>
      let a' := dictSet target val (dictDel (pyLower aspAttr) a)
      let st' :=
        if pyStartsWith target "@bind" ∧ val ∉ st.seen then
          ConvSt.mk (st.props ++ [synthBody val]) (st.seen ++ [val])
        else st
      processRenames rest a' st'

/-- The `if "type" in mapping` step of `convert_to_blazor`: set the
fixed `type` attribute unconditionally when the mapping declares one. -/
def typeStep (m : CtrlMap) (a : List (String × String)) :
    List (String × String) :=
  match m.type? with
  | some t => dictSet "type" t a
  | none => a

/-- The `onclick` step of `convert_to_blazor`: when the stripped value
is a valid identifier and a key of `events`, store it under the
mapping's event attribute and delete `onclick` — raising `KeyError`
(`none`) when the mapping has no `"event"` entry; otherwise leave the
attributes alone. -/
def clickStep (events : List (String × String)) (m : CtrlMap)
    (a : List (String × String)) : Option (List (String × String)) :=
  match dictGet? "onclick" a with
  | some v =>
    if isIdent (pyStrip v) ∧ hasKey (pyStrip v) events then
      match m.event? with
      | some ev => some (dictDel "onclick" (dictSet ev (pyStrip v) a))
      | none => none
    else some a
  | none => some a

/-- The `onclientclick` step of `convert_to_blazor`: pop
`onclientclick` onto `onclick` when present. -/
def clientStep (a : List (String × String)) : List (String × String) :=
  match dictGet? "onclientclick" a with
  | some w => dictSet "onclick" w (dictDel "onclientclick" a)
  | none => a

/-- The per-element body of `convert_to_blazor` for a mapped control:
delete `runat`, set the fixed `type`, run the renames, process
`onclick`, then move `onclientclick` onto `onclick`; `none` models the
uncaught `KeyError` of the onclick step. -/
def applyMapping (events : List (String × String)) (m : CtrlMap)
    (a0 : List (String × String)) (st : ConvSt) :
    Option (List (String × String) × ConvSt) :=
  let pr := processRenames m.attributes (typeStep m (dictDel "runat" a0)) st
  match clickStep events m pr.1 with
  | none => none
  | some a4 => some (clientStep a4, pr.2)

/-- The `find_all()` traversal of `convert_to_blazor` in document
(depth-first preorder) order, threading the property state; `none`
models the uncaught `KeyError`. -/
def convNodes (events : List (String × String)) :
    List Node → ConvSt → Option (List Node × ConvSt)
  | [], st => some ([], st)
  | Node.text s :: rest, st =>
    match convNodes events rest st with
    | none => none
    | some (rest', st') => some (Node.text s :: rest', st')
  | Node.elem n a c :: rest, st =>
    match lookupMap n with
    | some m =>
      match applyMapping events m a st with
      | none => none
      | some (a', st1) =>
        match convNodes events c st1 with
        | none => none
        | some (c', st2) =>
          match convNodes events rest st2 with
          | none => none
          | some (rest', st3) => some (Node.elem m.tag a' c' :: rest', st3)
    | none =>
      match convNodes events c st with
      | none => none
      | some (c', st1) =>
        match convNodes events rest st1 with
        | none => none
        | some (rest', st2) => some (Node.elem n a c' :: rest', st2)

/-- `convert_to_blazor`: seed `seen_props` from the incoming property
strings, rewrite the tree, and return the rewritten tree together with
the extended property list (`none` models a raised exception). -/
def convert_to_blazor (events : List (String × String))
    (props : List String) (ns : List Node) :
    Option (List Node × List String) :=
  (convNodes events ns (ConvSt.mk props (initSeen props))).map
    (fun r => (r.1, r.2.props))

/-- The preamble written by `save_blazor_file`. -/
def preamble (route : String) : String :=
  "@page \"" ++ route ++ "\"\n@using Home\n@inject IJSRuntime JS\n\n"

/-- The `@code` block built by `save_blazor_file`: wrapper markers
always, property bodies joined with newlines when nonempty, then event
bodies (dict values, insertion order) when nonempty. -/
def code_block (props : List String) (events : List (String × String)) : String :=
  "\n@code \x7b\n"
    ++ (if props.isEmpty then "" else String.intercalate "\n" props ++ "\n")
    ++ (if events.isEmpty then ""
        else String.intercalate "\n" (events.map (fun p => p.2)) ++ "\n")
    ++ "\x7d\n"

/-- `save_blazor_file` as the text it writes: preamble, converted
content, a newline, then the code block. -/
def save_blazor_file (content : String) (events : List (String × String))
    (props : List String) (route : String) : String :=
  preamble route ++ content ++ "\n" ++ code_block props events

/-- `os.path.basename` for POSIX paths: the part after the last slash. -/
def basenameChars (s : List Char) : List Char :=
  (s.reverse.takeWhile (fun c => c != '/')).reverse

/-- The root part of `os.path.splitext` applied to a basename: split at
the rightmost dot provided some earlier character is not a dot
(CPython's leading-dot rule); otherwise the name is returned whole. -/
def splitextRoot (s : List Char) : List Char :=
  let rev := s.reverse
  let extRev := rev.takeWhile (fun c => c != '.')
  if extRev.length = rev.length then s
  else
    let stemRev := rev.drop (extRev.length + 1)
    if stemRev.all (fun c => c == '.') then s
    else stemRev.reverse

/-- The route computed by `open_file`:
`"/" + splitext(basename(path))[0]`. -/
def routeOf (path : String) : String :=
  "/" ++ String.mk (splitextRoot (basenameChars path.data))

/-- Modelled from the spec: the route the specification claims —
filename without extension with its first character capitalized,
prefixed with `/`. -/
def routeSpecClaim (path : String) : String :=
  "/" ++ (match (splitextRoot (basenameChars path.data)) with
          | [] => ""
          | c :: rest => String.mk (c.toUpper :: rest))

/-- One input of the batch loop of `open_file`: the markup tree as
parsed (or `none` when `parse_aspx` failed and was caught), and the
code-behind file's existence and text. -/
structure FileInput where
  parsed? : Option (List Node)
  csExists : Bool
  csText : String

/-- The observable outcome of one file in the batch. -/
inductive Outcome where
  | skipped
  | converted (props : List String)
deriving DecidableEq

/-- The batch loop of `open_file`: a parse failure is caught (`soup is
None` → `continue`), but the unguarded `convert_to_blazor` call lets an
exception escape and abort the whole loop (`none`). -/
def batchRun : List FileInput → Option (List Outcome)
  | [] => some []
  | f :: rest =>
    match f.parsed? with
    | none =>
      match batchRun rest with
      | none => none
      | some outs => some (Outcome.skipped :: outs)
    | some ns =>
      match convert_to_blazor (parse_cs f.csExists f.csText).1
          (parse_cs f.csExists f.csText).2 (parse_aspx_tree ns) with
      | none => none
      | some (_, props') =>
        match batchRun rest with
        | none => none
        | some outs => some (Outcome.converted props' :: outs)

/-! ### Dictionary lemmas -/

theorem dictGet?_nil (k : String) : dictGet? k [] = none := rfl

theorem dictGet?_cons (k : String) (p : String × String)
    (rest : List (String × String)) :
    dictGet? k (p :: rest) = if p.1 = k then some p.2 else dictGet? k rest := by
  by_cases h : p.1 = k <;> simp [dictGet?, List.find?, h]

theorem dictDel_cons (k : String) (p : String × String)
    (rest : List (String × String)) :
    dictDel k (p :: rest) = if p.1 = k then dictDel k rest
      else p :: dictDel k rest := by
  by_cases h : p.1 = k <;> simp [dictDel, h]

theorem dictGet?_set_self (k v : String) (d : List (String × String)) :
    dictGet? k (dictSet k v d) = some v := by
  induction d with
  | nil => simp [dictSet, dictGet?_cons]
  | cons p rest ih =>
    by_cases h : p.1 = k
    · simp [dictSet, h, dictGet?_cons]
    · simp [dictSet, h, dictGet?_cons, ih]

theorem dictGet?_set_ne {k k' : String} (h : k ≠ k') (v : String)
    (d : List (String × String)) :
    dictGet? k (dictSet k' v d) = dictGet? k d := by
  induction d with
  | nil => simp [dictSet, dictGet?_cons, dictGet?_nil, Ne.symm h]
  | cons p rest ih =>
    by_cases hp : p.1 = k'
    · simp [dictSet, hp, dictGet?_cons, Ne.symm h, hp ▸ Ne.symm h]
    · simp [dictSet, hp, dictGet?_cons, ih]

theorem dictGet?_del_self (k : String) (d : List (String × String)) :
    dictGet? k (dictDel k d) = none := by
  induction d with
  | nil => rfl
  | cons p rest ih =>
    by_cases h : p.1 = k
    · simpa [dictDel_cons, h] using ih
    · simpa [dictDel_cons, h, dictGet?_cons] using ih

theorem dictGet?_del_ne {k k' : String} (h : k ≠ k')
    (d : List (String × String)) :
    dictGet? k (dictDel k' d) = dictGet? k d := by
  induction d with
  | nil => rfl
  | cons p rest ih =>
    rw [dictDel_cons]
    by_cases hp : p.1 = k'
    · have hk : ¬ p.1 = k := by rw [hp]; exact Ne.symm h
      rw [if_pos hp, dictGet?_cons, if_neg hk]
      exact ih
    · rw [if_neg hp, dictGet?_cons, dictGet?_cons]
      by_cases hk : p.1 = k
      · rw [if_pos hk, if_pos hk]
      · rw [if_neg hk, if_neg hk]
        exact ih

/-! ### State evolution of the rewriting pass

`StepOk s t vs` records that one stretch of the rewriting pass turned
state `s` into state `t` by appending exactly the synthesized
declarations for the values `vs`: the values are pairwise distinct and
none of them was seen before the stretch started. -/

def StepOk (s t : ConvSt) (vs : List String) : Prop :=
  t.props = s.props ++ vs.map synthBody ∧ t.seen = s.seen ++ vs ∧
    vs.Nodup ∧ ∀ v ∈ vs, v ∉ s.seen

theorem StepOk.rfl {s : ConvSt} : StepOk s s [] := by
  simp [StepOk]

theorem StepOk.trans {s t u : ConvSt} {vs ws : List String}
    (h1 : StepOk s t vs) (h2 : StepOk t u ws) : StepOk s u (vs ++ ws) := by
  obtain ⟨hp1, hs1, hn1, hd1⟩ := h1
  obtain ⟨hp2, hs2, hn2, hd2⟩ := h2
  refine ⟨?_, ?_, ?_, ?_⟩
  · rw [hp2, hp1, List.map_append, List.append_assoc]
  · rw [hs2, hs1, List.append_assoc]
  · rw [List.nodup_append]
    refine ⟨hn1, hn2, ?_⟩
    intro v hv hw
    exact hd2 v hw (hs1 ▸ List.mem_append_right _ hv)
  · intro v hv
    rcases List.mem_append.mp hv with h | h
    · exact hd1 v h
    · intro hmem
      exact hd2 v h (hs1 ▸ List.mem_append_left _ hmem)

theorem processRenames_step (renames : List (String × String))
    (a : List (String × String)) (st : ConvSt) :
    ∃ vs, StepOk st (processRenames renames a st).2 vs := by
  induction renames generalizing a st with
  | nil => exact ⟨[], StepOk.rfl⟩
  | cons p rest ih =>
    obtain ⟨aspAttr, target⟩ := p
    simp only [processRenames]
    cases hget : dictGet? (pyLower aspAttr) a with
    | none => exact ih a st
    | some val =>
      simp only
      by_cases hcond : pyStartsWith target "@bind" ∧ val ∉ st.seen
      · rw [if_pos hcond]
        obtain ⟨vs, hvs⟩ := ih (dictSet target val (dictDel (pyLower aspAttr) a))
          (ConvSt.mk (st.props ++ [synthBody val]) (st.seen ++ [val]))
        refine ⟨[val] ++ vs, StepOk.trans ?_ hvs⟩
        refine ⟨by simp, by simp, by simp, ?_⟩
        intro v hv
        rw [List.mem_singleton] at hv
        exact hv ▸ hcond.2
      · rw [if_neg hcond]
        exact ih (dictSet target val (dictDel (pyLower aspAttr) a)) st

theorem applyMapping_state (events : List (String × String)) (m : CtrlMap)
    (a : List (String × String)) (st : ConvSt)
    {r : List (String × String) × ConvSt}
    (h : applyMapping events m a st = some r) :
    ∃ vs, StepOk st r.2 vs := by
  simp only [applyMapping] at h
  cases hs4 : clickStep events m
      (processRenames m.attributes (typeStep m (dictDel "runat" a)) st).1 with
  | none => rw [hs4] at h; exact absurd h (by simp)
  | some a4 =>
    rw [hs4] at h
    simp only [Option.some.injEq] at h
    rw [← h]
    exact processRenames_step _ _ _

theorem convNodes_state (events : List (String × String)) :
    ∀ (ns : List Node) (st : ConvSt) (r : List Node × ConvSt),
    convNodes events ns st = some r → ∃ vs, StepOk st r.2 vs := by
  intro ns st
  induction ns, st using convNodes.induct events with
  | case1 st =>
    intro r h
    simp only [convNodes, Option.some.injEq] at h
    exact ⟨[], h ▸ StepOk.rfl⟩
  | case2 s rest st hrest ih =>
    intro r h
    simp only [convNodes, hrest] at h
    exact Option.noConfusion h
  | case3 s rest st rest' st' hrest ih =>
    intro r h
    simp only [convNodes, hrest, Option.some.injEq] at h
    obtain ⟨vs, hvs⟩ := ih (rest', st') hrest
    exact ⟨vs, by rw [← h]; exact hvs⟩
  | case4 n a c rest st m hm happ =>
    intro r h
    simp only [convNodes, hm, happ] at h
    exact Option.noConfusion h
  | case5 n a c rest st m hm a' st1 happ hc ih =>
    intro r h
    simp only [convNodes, hm, happ, hc] at h
    exact Option.noConfusion h
  | case6 n a c rest st m hm a' st1 happ rest' st' hc hrest ihc ihr =>
    intro r h
    simp only [convNodes, hm, happ, hc, hrest] at h
    exact Option.noConfusion h
  | case7 n a c rest st m hm a' st1 happ c' st2 hc rest' st3 hrest ihc ihr =>
    intro r h
    simp only [convNodes, hm, happ, hc, hrest, Option.some.injEq] at h
    obtain ⟨vs1, h1⟩ := applyMapping_state events m a st happ
    obtain ⟨vs2, h2⟩ := ihc (c', st2) hc
    obtain ⟨vs3, h3⟩ := ihr (rest', st3) hrest
    refine ⟨vs1 ++ (vs2 ++ vs3), ?_⟩
    have := StepOk.trans h1 (StepOk.trans h2 h3)
    rw [← h]
    exact this
  | case8 n a c rest st hm hc ih =>
    intro r h
    simp only [convNodes, hm, hc] at h
    exact Option.noConfusion h
  | case9 n a c rest st hm rest' st' hc hrest ihc ihr =>
    intro r h
    simp only [convNodes, hm, hc, hrest] at h
    exact Option.noConfusion h
  | case10 n a c rest st hm c' st1 hc rest' st2 hrest ihc ihr =>
    intro r h
    simp only [convNodes, hm, hc, hrest, Option.some.injEq] at h
    obtain ⟨vs1, h1⟩ := ihc (c', st1) hc
    obtain ⟨vs2, h2⟩ := ihr (rest', st2) hrest
    refine ⟨vs1 ++ vs2, ?_⟩
    have := StepOk.trans h1 h2
    rw [← h]
    exact this

/-! ### Attribute preservation through the rewriting steps -/

theorem typeStep_get_ne {k : String} (h : k ≠ "type") (m : CtrlMap)
    (a : List (String × String)) :
    dictGet? k (typeStep m a) = dictGet? k a := by
  cases htyp : m.type? with
  | none => simp [typeStep, htyp]
  | some t => simp [typeStep, htyp, dictGet?_set_ne h]

theorem processRenames_get_pres (k : String) (renames : List (String × String)) :
    ∀ (a : List (String × String)) (st : ConvSt),
    (∀ p ∈ renames, ¬ pyLower p.1 = k ∧ ¬ p.2 = k) →
    dictGet? k (processRenames renames a st).1 = dictGet? k a := by
  induction renames with
  | nil => intro a st _; rfl
  | cons p rest ih =>
    intro a st h
    obtain ⟨aspAttr, target⟩ := p
    have h1 := (h (aspAttr, target) (List.mem_cons_self _ _)).1
    have h2 := (h (aspAttr, target) (List.mem_cons_self _ _)).2
    have hrest := fun q hq => h q (List.mem_cons_of_mem _ hq)
    simp only [processRenames]
    cases hget : dictGet? (pyLower aspAttr) a with
    | none => exact ih a st hrest
    | some val =>
      simp only
      rw [ih _ _ hrest, dictGet?_set_ne (fun hh => h2 hh.symm),
        dictGet?_del_ne (fun hh => h1 hh.symm)]

theorem processRenames_get_none (k : String) (renames : List (String × String)) :
    ∀ (a : List (String × String)) (st : ConvSt),
    dictGet? k a = none → (∀ p ∈ renames, ¬ p.2 = k) →
    dictGet? k (processRenames renames a st).1 = none := by
  induction renames with
  | nil => intro a st h0 _; exact h0
  | cons p rest ih =>
    intro a st h0 h
    obtain ⟨aspAttr, target⟩ := p
    have h2 := h (aspAttr, target) (List.mem_cons_self _ _)
    have hrest := fun q hq => h q (List.mem_cons_of_mem _ hq)
    simp only [processRenames]
    cases hget : dictGet? (pyLower aspAttr) a with
    | none => exact ih a st h0 hrest
    | some val =>
      simp only
      refine ih _ _ ?_ hrest
      rw [dictGet?_set_ne (fun hh => h2 hh.symm)]
      by_cases hkl : pyLower aspAttr = k
      · rw [← hkl, dictGet?_del_self]
      · rw [dictGet?_del_ne (fun hh => hkl hh.symm)]
        exact h0

/-- Conditions under which the rename table of a mapping cannot touch
the click attributes: no legacy source name lowercases to them and no
target equals them.  Every entry of `element_mapping` satisfies this. -/
def NoClickRenames (m : CtrlMap) : Prop :=
  ∀ p ∈ m.attributes, ¬ pyLower p.1 = "onclick" ∧ ¬ p.2 = "onclick" ∧
    ¬ pyLower p.1 = "onclientclick" ∧ ¬ p.2 = "onclientclick"

instance (m : CtrlMap) : Decidable (NoClickRenames m) := by
  unfold NoClickRenames
  infer_instance

theorem pipeline_get_pres {k : String} (hk1 : k ≠ "type") (hk2 : k ≠ "runat")
    (m : CtrlMap) (a : List (String × String)) (st : ConvSt)
    (hren : ∀ p ∈ m.attributes, ¬ pyLower p.1 = k ∧ ¬ p.2 = k) :
    dictGet? k (processRenames m.attributes (typeStep m (dictDel "runat" a)) st).1
      = dictGet? k a := by
  rw [processRenames_get_pres _ _ _ _ hren, typeStep_get_ne hk1,
    dictGet?_del_ne hk2]

theorem applyMapping_click_known (events : List (String × String))
    (m : CtrlMap) (ev : String) (a : List (String × String)) (st : ConvSt)
    (v : String)
    (hren : NoClickRenames m)
    (hev : m.event? = some ev) (hev1 : ev ≠ "onclick")
    (hev2 : ev ≠ "onclientclick")
    (hv : dictGet? "onclick" a = some v)
    (hcc : dictGet? "onclientclick" a = none)
    (hcond : isIdent (pyStrip v) ∧ hasKey (pyStrip v) events) :
    ∃ a' st', applyMapping events m a st = some (a', st') ∧
      dictGet? ev a' = some (pyStrip v) ∧
      dictGet? "onclick" a' = none ∧
      dictGet? "onclientclick" a' = none := by
  have hclickpr : dictGet? "onclick"
      (processRenames m.attributes (typeStep m (dictDel "runat" a)) st).1
        = some v := by
    rw [pipeline_get_pres (by decide) (by decide) m a st
      (fun p hp => ⟨(hren p hp).1, (hren p hp).2.1⟩)]
    exact hv
  have hccpr : dictGet? "onclientclick"
      (processRenames m.attributes (typeStep m (dictDel "runat" a)) st).1
        = none := by
    rw [pipeline_get_pres (by decide) (by decide) m a st
      (fun p hp => ⟨(hren p hp).2.2.1, (hren p hp).2.2.2⟩)]
    exact hcc
  have hclick : clickStep events m
      (processRenames m.attributes (typeStep m (dictDel "runat" a)) st).1
        = some (dictDel "onclick" (dictSet ev (pyStrip v)
          (processRenames m.attributes (typeStep m (dictDel "runat" a)) st).1)) := by
    simp only [clickStep, hclickpr, if_pos hcond, hev]
  have hccA4 : dictGet? "onclientclick" (dictDel "onclick" (dictSet ev (pyStrip v)
      (processRenames m.attributes (typeStep m (dictDel "runat" a)) st).1))
        = none := by
    rw [dictGet?_del_ne (by decide), dictGet?_set_ne (Ne.symm hev2)]
    exact hccpr
  have ha5 : clientStep (dictDel "onclick" (dictSet ev (pyStrip v)
      (processRenames m.attributes (typeStep m (dictDel "runat" a)) st).1))
        = dictDel "onclick" (dictSet ev (pyStrip v)
          (processRenames m.attributes (typeStep m (dictDel "runat" a)) st).1) := by
    simp only [clientStep, hccA4]
  refine ⟨dictDel "onclick" (dictSet ev (pyStrip v)
      (processRenames m.attributes (typeStep m (dictDel "runat" a)) st).1),
    (processRenames m.attributes (typeStep m (dictDel "runat" a)) st).2,
    ?_, ?_, ?_, hccA4⟩
  · simp only [applyMapping, hclick, ha5]
  · rw [dictGet?_del_ne hev1, dictGet?_set_self]
  · rw [dictGet?_del_self]

theorem applyMapping_click_unknown (events : List (String × String))
    (m : CtrlMap) (a : List (String × String)) (st : ConvSt) (v : String)
    (hren : NoClickRenames m)
    (hv : dictGet? "onclick" a = some v)
    (hcc : dictGet? "onclientclick" a = none)
    (hcond : ¬ (isIdent (pyStrip v) ∧ hasKey (pyStrip v) events)) :
    ∃ st', applyMapping events m a st = some
        ((processRenames m.attributes (typeStep m (dictDel "runat" a)) st).1, st') ∧
      dictGet? "onclick"
        (processRenames m.attributes (typeStep m (dictDel "runat" a)) st).1
          = some v := by
  have hclickpr : dictGet? "onclick"
      (processRenames m.attributes (typeStep m (dictDel "runat" a)) st).1
        = some v := by
    rw [pipeline_get_pres (by decide) (by decide) m a st
      (fun p hp => ⟨(hren p hp).1, (hren p hp).2.1⟩)]
    exact hv
  have hccpr : dictGet? "onclientclick"
      (processRenames m.attributes (typeStep m (dictDel "runat" a)) st).1
        = none := by
    rw [pipeline_get_pres (by decide) (by decide) m a st
      (fun p hp => ⟨(hren p hp).2.2.1, (hren p hp).2.2.2⟩)]
    exact hcc
  have hclick : clickStep events m
      (processRenames m.attributes (typeStep m (dictDel "runat" a)) st).1
        = some (processRenames m.attributes (typeStep m (dictDel "runat" a)) st).1 := by
    simp only [clickStep, hclickpr, if_neg hcond]
  refine ⟨(processRenames m.attributes (typeStep m (dictDel "runat" a)) st).2,
    ?_, hclickpr⟩
  simp only [applyMapping, hclick, clientStep, hccpr]

theorem applyMapping_clientclick (events : List (String × String))
    (m : CtrlMap) (a : List (String × String)) (st : ConvSt) (v w : String)
    (hren : NoClickRenames m)
    (hv : dictGet? "onclick" a = some v)
    (hcond : ¬ (isIdent (pyStrip v) ∧ hasKey (pyStrip v) events))
    (hw : dictGet? "onclientclick" a = some w) :
    ∃ a' st', applyMapping events m a st = some (a', st') ∧
      dictGet? "onclick" a' = some w ∧
      dictGet? "onclientclick" a' = none := by
  have hclickpr : dictGet? "onclick"
      (processRenames m.attributes (typeStep m (dictDel "runat" a)) st).1
        = some v := by
    rw [pipeline_get_pres (by decide) (by decide) m a st
      (fun p hp => ⟨(hren p hp).1, (hren p hp).2.1⟩)]
    exact hv
  have hccpr : dictGet? "onclientclick"
      (processRenames m.attributes (typeStep m (dictDel "runat" a)) st).1
        = some w := by
    rw [pipeline_get_pres (by decide) (by decide) m a st
      (fun p hp => ⟨(hren p hp).2.2.1, (hren p hp).2.2.2⟩)]
    exact hw
  have hclick : clickStep events m
      (processRenames m.attributes (typeStep m (dictDel "runat" a)) st).1
        = some (processRenames m.attributes (typeStep m (dictDel "runat" a)) st).1 := by
    simp only [clickStep, hclickpr, if_neg hcond]
  refine ⟨dictSet "onclick" w (dictDel "onclientclick"
      (processRenames m.attributes (typeStep m (dictDel "runat" a)) st).1),
    (processRenames m.attributes (typeStep m (dictDel "runat" a)) st).2,
    ?_, ?_, ?_⟩
  · simp only [applyMapping, hclick, clientStep, hccpr]
  · rw [dictGet?_set_self]
  · rw [dictGet?_set_ne (by decide), dictGet?_del_self]

theorem applyMapping_strips_runat (events : List (String × String))
    (m : CtrlMap) (a : List (String × String)) (st : ConvSt)
    {a' : List (String × String)} {st' : ConvSt}
    (htgt : ∀ p ∈ m.attributes, ¬ p.2 = "runat")
    (hev : ∀ ev, m.event? = some ev → ev ≠ "runat")
    (h : applyMapping events m a st = some (a', st')) :
    dictGet? "runat" a' = none := by
  have hpr : dictGet? "runat"
      (processRenames m.attributes (typeStep m (dictDel "runat" a)) st).1
        = none := by
    refine processRenames_get_none _ _ _ _ ?_ htgt
    rw [typeStep_get_ne (by decide), dictGet?_del_self]
  rw [applyMapping] at h
  cases hclick : clickStep events m
      (processRenames m.attributes (typeStep m (dictDel "runat" a)) st).1 with
  | none => rw [hclick] at h; exact absurd h (by simp)
  | some a4 =>
    rw [hclick] at h
    simp only [Option.some.injEq, Prod.mk.injEq] at h
    have ha4 : dictGet? "runat" a4 = none := by
      cases hoc : dictGet? "onclick"
          (processRenames m.attributes (typeStep m (dictDel "runat" a)) st).1 with
      | none =>
        simp only [clickStep, hoc, Option.some.injEq] at hclick
        rw [← hclick]
        exact hpr
      | some v =>
        simp only [clickStep, hoc] at hclick
        by_cases hcond : isIdent (pyStrip v) ∧ hasKey (pyStrip v) events
        · rw [if_pos hcond] at hclick
          cases hevq : m.event? with
          | none => rw [hevq] at hclick; exact absurd hclick (by simp)
          | some ev =>
            rw [hevq] at hclick
            simp only [Option.some.injEq] at hclick
            rw [← hclick, dictGet?_del_ne (by decide),
              dictGet?_set_ne (Ne.symm (hev ev hevq))]
            exact hpr
        · rw [if_neg hcond] at hclick
          simp only [Option.some.injEq] at hclick
          rw [← hclick]
          exact hpr
    rw [← h.1, clientStep]
    cases hocc : dictGet? "onclientclick" a4 with
    | none => simp only [hocc]; exact ha4
    | some w =>
      simp only [hocc]
      rw [dictGet?_set_ne (by decide), dictGet?_del_ne (by decide)]
      exact ha4

/-! ### Wrapper unwrapping -/

/-- No node of the forest, at any depth, is a `form` whose `runat`
value lowercases to `"server"`. -/
def serverFormFree : List Node → Bool
  | [] => true
  | Node.text _ :: r => serverFormFree r
  | Node.elem n a c :: r =>
    !(n = "form" && pyLower ((dictGet? "runat" a).getD "") = "server")
      && serverFormFree c && serverFormFree r

theorem unwrapForms_splice (a : List (String × String)) (c rest : List Node)
    (h : pyLower ((dictGet? "runat" a).getD "") = "server") :
    unwrapForms (Node.elem "form" a c :: rest)
      = unwrapForms c ++ unwrapForms rest := by
  simp [unwrapForms, h]

theorem unwrapForms_id : ∀ (ns : List Node), serverFormFree ns = true →
    unwrapForms ns = ns := by
  intro ns
  induction ns using unwrapForms.induct with
  | case1 => intro _; simp [unwrapForms]
  | case2 s rest ih =>
    intro h
    simp only [unwrapForms]
    rw [ih (by simpa [serverFormFree] using h)]
  | case3 n a c rest hcond ihc ihr =>
    intro h
    simp only [serverFormFree] at h
    rw [hcond] at h
    simp at h
  | case4 n a c rest hcond ihc ihr =>
    intro h
    simp only [serverFormFree, Bool.and_eq_true] at h
    simp only [unwrapForms]
    rw [if_neg hcond, ihc h.1.2, ihr h.2]

/-! ### Scanner lemmas -/

/-- The head of the list, if any, fails the predicate. -/
def headNot (p : Char → Bool) : List Char → Prop
  | [] => True
  | c :: _ => p c = false

theorem dropWhile_headNot {p : Char → Bool} :
    ∀ {s : List Char}, headNot p s → s.dropWhile p = s := by
  intro s h
  cases s with
  | nil => rfl
  | cons c cs =>
    have h' : p c = false := h
    simp [List.dropWhile_cons, h']

theorem dropLit_append (l r : List Char) : dropLit l (l ++ r) = some r := by
  induction l with
  | nil => rfl
  | cons c cs ih => simp [dropLit, ih]

theorem not_ws_of_word {c : Char} (h : isWord c = true) : isWs c = false := by
  cases hI : isWs c with
  | false => rfl
  | true =>
    exfalso
    simp only [isWs, Bool.or_eq_true, decide_eq_true_eq] at hI
    rcases hI with ((((rfl | rfl) | rfl) | rfl) | rfl) | rfl <;>
      exact absurd h (by decide)

theorem ws1_space {r : List Char} (h : headNot isWs r) :
    ws1 (' ' :: r) = some r := by
  rw [ws1, if_pos (show isWs ' ' = true by decide), dropWhile_headNot h]

theorem takeWhile_word_append {w r : List Char} (hw : w.all isWord = true)
    (hr : headNot isWord r) :
    (w ++ r).takeWhile isWord = w ∧ (w ++ r).dropWhile isWord = r := by
  induction w with
  | nil =>
    cases r with
    | nil => exact ⟨rfl, rfl⟩
    | cons c cs =>
      simp [List.takeWhile_cons, List.dropWhile_cons, show isWord c = false from hr]
  | cons c cs ih =>
    simp only [List.all_cons, Bool.and_eq_true] at hw
    obtain ⟨h1, h2⟩ := ih hw.2
    simp [List.takeWhile_cons, List.dropWhile_cons, hw.1, h1, h2]

theorem word1_append {w r : List Char} (hne : w ≠ []) (hw : w.all isWord = true)
    (hr : headNot isWord r) : word1 (w ++ r) = some (w, r) := by
  cases w with
  | nil => exact absurd rfl hne
  | cons c cs =>
    simp only [List.all_cons, Bool.and_eq_true] at hw
    obtain ⟨h1, h2⟩ := takeWhile_word_append hw.2 hr
    simp [word1, hw.1, h1, h2]

theorem headNot_isWs_of_word : ∀ {s : List Char}, s.all isWord = true →
    headNot isWs s := by
  intro s h
  cases s with
  | nil => trivial
  | cons c cs =>
    simp only [List.all_cons, Bool.and_eq_true] at h
    exact not_ws_of_word h.1

theorem headNot_cons {p : Char → Bool} {c : Char} {cs : List Char}
    (h : p c = false) : headNot p (c :: cs) := h

theorem headNot_append {p : Char → Bool} {w r : List Char} (hw : w ≠ [])
    (h : headNot p w) : headNot p (w ++ r) := by
  cases w with
  | nil => exact absurd rfl hw
  | cons c cs => exact h

theorem matchSeedName_shape (t n rest : List Char)
    (ht : t ≠ [] ∧ t.all isWord = true) (hn : n ≠ [] ∧ n.all isWord = true)
    (hrest : headNot isWord rest) :
    matchSeedName ("public".data ++ ' ' :: (t ++ ' ' :: (n ++ rest)))
      = some n := by
  have hx1 : headNot isWs (t ++ ' ' :: (n ++ rest)) :=
    headNot_append ht.1 (headNot_isWs_of_word ht.2)
  have hx2 : headNot isWord (' ' :: (n ++ rest)) := headNot_cons (by decide)
  have hx3 : headNot isWs (n ++ rest) :=
    headNot_append hn.1 (headNot_isWs_of_word hn.2)
  simp only [matchSeedName, dropLit_append, ws1_space hx1,
    word1_append ht.1 ht.2 hx2, ws1_space hx3,
    word1_append hn.1 hn.2 hrest]

/-- A nonempty string of word characters (the shape of every capture of
the field and handler patterns). -/
def wordStr (s : String) : Prop := s.data ≠ [] ∧ s.data.all isWord = true

instance (s : String) : Decidable (wordStr s) := by
  unfold wordStr
  infer_instance

theorem strMk_data (s : String) : String.mk s.data = s := by
  obtain ⟨d⟩ := s
  rfl

theorem fieldBody_data (t n : String) :
    (fieldBody t n).data
      = "public".data ++ ' ' :: (t.data ++ ' ' :: (n.data
          ++ " \x7b get; set; \x7d".data)) := by
  simp only [fieldBody, String.data_append, List.append_assoc]
  rfl

theorem matchSeedName_fieldBody (t n : String) (ht : wordStr t)
    (hn : wordStr n) :
    matchSeedName (fieldBody t n).data = some n.data := by
  have hrest : headNot isWord (" \x7b get; set; \x7d".data) := by
    show isWord ' ' = false
    decide
  rw [fieldBody_data]
  exact matchSeedName_shape t.data n.data _ ht hn hrest

theorem initSeen_fieldBodies (decls : List (String × String))
    (h : ∀ d ∈ decls, wordStr d.1 ∧ wordStr d.2) :
    initSeen (decls.map fun d => fieldBody d.1 d.2) = decls.map Prod.snd := by
  induction decls with
  | nil => rfl
  | cons d rest ih =>
    have hd := h d (List.mem_cons_self _ _)
    simp only [List.map_cons, initSeen, List.filterMap_cons,
      matchSeedName_fieldBody d.1 d.2 hd.1 hd.2, Option.map_some',
      strMk_data]
    rw [show List.filterMap (fun p => (matchSeedName p.data).map String.mk)
        (rest.map fun d => fieldBody d.1 d.2)
          = initSeen (rest.map fun d => fieldBody d.1 d.2) from rfl]
    rw [ih (fun q hq => h q (List.mem_cons_of_mem _ hq))]

/-! ### Path lemmas for the route computation -/

theorem takeWhile_append_stop {p : Char → Bool} (x : Char) (r : List Char)
    (hx : p x = false) :
    ∀ (w : List Char), w.all p = true → (w ++ x :: r).takeWhile p = w := by
  intro w
  induction w with
  | nil => intro _; simp [List.takeWhile_cons, hx]
  | cons c cs ih =>
    intro hw
    simp only [List.all_cons, Bool.and_eq_true] at hw
    simp [List.takeWhile_cons, hw.1, ih hw.2]

theorem basenameChars_append (d s : List Char) (hs : ∀ c ∈ s, c ≠ '/') :
    basenameChars (d ++ '/' :: s) = s := by
  have hrev : (d ++ '/' :: s).reverse = s.reverse ++ '/' :: d.reverse := by
    simp [List.reverse_append]
  have hall : s.reverse.all (fun c => c != '/') = true := by
    rw [List.all_eq_true]
    intro c hc
    simpa using hs c (List.mem_reverse.mp hc)
  rw [basenameChars, hrev,
    takeWhile_append_stop _ _ (by decide) _ hall, List.reverse_reverse]

theorem splitextRoot_append (stem ext : List Char)
    (hstem : ∃ c ∈ stem, c ≠ '.') (hext : ∀ c ∈ ext, c ≠ '.') :
    splitextRoot (stem ++ '.' :: ext) = stem := by
  have hrev : (stem ++ '.' :: ext).reverse = ext.reverse ++ '.' :: stem.reverse := by
    simp [List.reverse_append]
  have hall : ext.reverse.all (fun c => c != '.') = true := by
    rw [List.all_eq_true]
    intro c hc
    simpa using hext c (List.mem_reverse.mp hc)
  have htake : (ext.reverse ++ '.' :: stem.reverse).takeWhile (fun c => c != '.')
      = ext.reverse := takeWhile_append_stop _ _ (by decide) _ hall
  simp only [splitextRoot]
  rw [hrev, htake]
  have hlen : ¬ (ext.reverse.length = (ext.reverse ++ '.' :: stem.reverse).length) := by
    simp only [List.length_append, List.length_cons]
    omega
  rw [if_neg hlen]
  have hsplit : ext.reverse ++ '.' :: stem.reverse
      = (ext.reverse ++ ['.']) ++ stem.reverse := by simp
  have hl : ext.reverse.length + 1 = (ext.reverse ++ ['.']).length := by simp
  rw [hsplit, hl, List.drop_left]
  have hdots : ¬ (stem.reverse.all (fun c => c == '.') = true) := by
    obtain ⟨c, hc, hne⟩ := hstem
    intro hall'
    have := List.all_eq_true.mp hall' c (List.mem_reverse.mpr hc)
    simp at this
    exact hne this
  rw [if_neg hdots, List.reverse_reverse]

/-! ### Concrete inputs used by the claim theorems -/

/-- The tree `html.parser` produces for
`<asp:Button runat="server" Text="Save" OnClick="SaveClick"/>`: tag and
attribute names lowercased, self-closing start tag, no children. -/
def exampleButtonTree : List Node :=
  [Node.elem "asp:button"
    [("runat", "server"), ("text", "Save"), ("onclick", "SaveClick")] []]

/-- The code-behind text of the example scenario. -/
def exampleButtonCs : String :=
  "protected void SaveClick(object sender, EventArgs e) \x7b\x7d"

/-! ### Claim theorems -/

/-- C1 (counterexample): the claim quantifies over every code-behind
field list, but `parse_cs` does not deduplicate, so the code-behind
`public int X; public string X;` yields two distinct declarations both
named `X`, and `convert_to_blazor` keeps both — the final collection
does not contain exactly one declaration per distinct name. -/
theorem claim_C1_counterexample :
    (parse_cs true "public int X;\npublic string X;").2
      = [fieldBody "int" "X", fieldBody "string" "X"] ∧
    convert_to_blazor [] [fieldBody "int" "X", fieldBody "string" "X"] []
      = some ([], [fieldBody "int" "X", fieldBody "string" "X"]) ∧
    (matchSeedName (fieldBody "int" "X").data).map String.mk = some "X" ∧
    (matchSeedName (fieldBody "string" "X").data).map String.mk = some "X" ∧
    fieldBody "int" "X" ≠ fieldBody "string" "X" := by
  refine ⟨by decide, ?_, by decide, by decide, by decide⟩
  simp [convert_to_blazor, convNodes]

/-- C1 (amended): provided the code-behind field list has pairwise
distinct names, the rewriting pass appends exactly one synthesized
declaration per distinct new binding value, none of which equals a
declared field name, so no two declarations of the final collection
share a name. -/
theorem claim_C1_thm : ∀ (decls : List (String × String))
    (events : List (String × String)) (ns : List Node)
    (r : List Node × List String),
    (∀ d ∈ decls, wordStr d.1 ∧ wordStr d.2) →
    (decls.map Prod.snd).Nodup →
    convert_to_blazor events (decls.map fun d => fieldBody d.1 d.2) ns
      = some r →
    ∃ vs : List String,
      r.2 = (decls.map fun d => fieldBody d.1 d.2) ++ vs.map synthBody ∧
      (decls.map Prod.snd ++ vs).Nodup := by
  intro decls events ns r hw hnd hconv
  simp only [convert_to_blazor] at hconv
  cases hc : convNodes events ns
      (ConvSt.mk (decls.map fun d => fieldBody d.1 d.2)
        (initSeen (decls.map fun d => fieldBody d.1 d.2))) with
  | none => rw [hc] at hconv; exact Option.noConfusion hconv
  | some p =>
    simp only [hc, Option.map_some', Option.some.injEq] at hconv
    obtain ⟨vs, hpr, hsn, hnv, hdj⟩ := convNodes_state events ns _ p hc
    refine ⟨vs, ?_, ?_⟩
    · rw [← hconv]
      exact hpr
    · rw [List.nodup_append]
      have hseen : initSeen (decls.map fun d => fieldBody d.1 d.2)
          = decls.map Prod.snd := initSeen_fieldBodies decls hw
      refine ⟨hnd, hnv, ?_⟩
      intro x hx hxvs
      exact hdj x hxvs (by rw [show (ConvSt.mk
        (decls.map fun d => fieldBody d.1 d.2)
        (initSeen (decls.map fun d => fieldBody d.1 d.2))).seen
          = initSeen (decls.map fun d => fieldBody d.1 d.2) from rfl, hseen]; exact hx)

/-- C1 (witness): a declared field `Name` and a text box bound to
`Name` yield no new declaration. -/
theorem claim_C1_witness :
    ∃ vs : List String,
      (([Node.elem "input" [("@bind-Value", "Name")] []],
        [fieldBody "string" "Name"]) : List Node × List String).2
        = ([(("string" : String), ("Name" : String))].map
            fun d => fieldBody d.1 d.2) ++ vs.map synthBody ∧
      (([(("string" : String), ("Name" : String))].map Prod.snd)
          ++ vs).Nodup :=
  claim_C1_thm [("string", "Name")] []
    [Node.elem "asp:TextBox" [("text", "Name")] []]
    ([Node.elem "input" [("@bind-Value", "Name")] []],
      [fieldBody "string" "Name"])
    (by decide) (by decide)
    (by simp [convert_to_blazor, convNodes, applyMapping, processRenames,
      clickStep, clientStep, typeStep, lookupMap, element_mapping, initSeen,
      dictGet?, dictSet, dictDel, pyLower, pyStartsWith, fieldBody,
      matchSeedName, dropLit, ws1, ws0, word1, isWs, isWord])

/-- C2 (counterexample): a mapped control whose mapping declares no
event attribute (`asp:TextBox`) carrying `onclick="H"` with `H` a known
handler makes `convert_to_blazor` raise `KeyError`: the attribute is
neither replaced nor left untouched. -/
theorem claim_C2_counterexample :
    isIdent "H" = true ∧
    hasKey "H" [("H", eventStub "H")] = true ∧
    lookupMap "asp:TextBox"
      = some (CtrlMap.mk "input" [("Text", "@bind-Value")] none none) ∧
    convert_to_blazor [("H", eventStub "H")] []
        (parse_aspx_tree
          [Node.elem "asp:textbox" [("runat", "server"), ("onclick", "H")] []])
      = none := by
  refine ⟨by decide, by decide, by decide, ?_⟩
  simp [convert_to_blazor, parse_aspx_tree, restoreTags, unwrapForms,
    convNodes, applyMapping, processRenames, clickStep, clientStep,
    typeStep, lookupMap, element_mapping, restoreName, mappingKeys,
    dictGet?, dictSet, dictDel, initSeen, pyStrip, isIdent, hasKey, isWs,
    isWord, eventStub, pyLower, pyStartsWith]

/-- C2 (amended): for a mapped control whose mapping declares an
event-binding attribute, an onclick value whose trim is a valid
identifier known to `events` is moved (trimmed) to that attribute and
the original removed; any other value is left untouched, provided no
client-click attribute is present (when the mapping declares no event
attribute, the known-identifier case raises instead). -/
theorem claim_C2_thm : ∀ (events : List (String × String)) (m : CtrlMap)
    (ev : String) (a : List (String × String)) (st : ConvSt) (v : String),
    NoClickRenames m → m.event? = some ev → ev ≠ "onclick" →
    ev ≠ "onclientclick" →
    dictGet? "onclick" a = some v →
    dictGet? "onclientclick" a = none →
    ((isIdent (pyStrip v) ∧ hasKey (pyStrip v) events) →
      ∃ a' st', applyMapping events m a st = some (a', st') ∧
        dictGet? ev a' = some (pyStrip v) ∧ dictGet? "onclick" a' = none) ∧
    (¬ (isIdent (pyStrip v) ∧ hasKey (pyStrip v) events) →
      ∃ a' st', applyMapping events m a st = some (a', st') ∧
        dictGet? "onclick" a' = some v) := by
  intro events m ev a st v hren hev hev1 hev2 hv hcc
  constructor
  · intro hcond
    obtain ⟨a', st', h1, h2, h3, _⟩ :=
      applyMapping_click_known events m ev a st v hren hev hev1 hev2 hv hcc hcond
    exact ⟨a', st', h1, h2, h3⟩
  · intro hcond
    obtain ⟨st', h1, h2⟩ :=
      applyMapping_click_unknown events m a st v hren hv hcc hcond
    exact ⟨_, st', h1, h2⟩

/-- C2 (witness): the button mapping with a known handler converts the
attribute. -/
theorem claim_C2_witness :
    ∃ a' st', applyMapping [("SaveClick", eventStub "SaveClick")]
        (CtrlMap.mk "button" [("Text", "@bind-Value")] none (some "@onclick"))
        [("onclick", "SaveClick")] (ConvSt.mk [] []) = some (a', st') ∧
      dictGet? "@onclick" a' = some (pyStrip "SaveClick") ∧
      dictGet? "onclick" a' = none :=
  (claim_C2_thm [("SaveClick", eventStub "SaveClick")]
    (CtrlMap.mk "button" [("Text", "@bind-Value")] none (some "@onclick"))
    "@onclick" [("onclick", "SaveClick")] (ConvSt.mk [] []) "SaveClick"
    (by decide) rfl (by decide) (by decide) (by decide) (by decide)).1
    (by decide)

/-- C3 (counterexample): a file whose conversion raises (a text box
with a known onclick handler) aborts the whole batch: a second file
that converts fine on its own is never processed. -/
theorem claim_C3_counterexample :
    batchRun [FileInput.mk (some []) false ""]
      = some [Outcome.converted []] ∧
    batchRun [FileInput.mk
        (some [Node.elem "asp:textbox" [("runat", "server"), ("onclick", "H")] []])
        true "protected void H(object sender, EventArgs e) \x7b\x7d",
      FileInput.mk (some []) false ""]
      = none := by
  have hcs : parse_cs true "protected void H(object sender, EventArgs e) \x7b\x7d"
      = ([("H", eventStub "H")], []) := by decide
  constructor
  · simp [batchRun, parse_cs, parse_aspx_tree, restoreTags, unwrapForms,
      convert_to_blazor, convNodes, initSeen]
  · simp [batchRun, hcs, parse_aspx_tree, restoreTags, unwrapForms,
      convert_to_blazor, convNodes, applyMapping, processRenames, clickStep,
      clientStep, typeStep, lookupMap, element_mapping, restoreName,
      mappingKeys, dictGet?, dictSet, dictDel, initSeen, pyStrip, isIdent,
      hasKey, isWs, isWord, eventStub, pyLower, pyStartsWith]

/-- C3 (amended): a parse failure on one file is caught and the batch
continues with the next file; only an exception raised inside the
transform step aborts the remaining conversions. -/
theorem claim_C3_thm : ∀ (f : FileInput) (rest : List FileInput)
    (outs : List Outcome),
    f.parsed? = none → batchRun rest = some outs →
    batchRun (f :: rest) = some (Outcome.skipped :: outs) := by
  intro f rest outs hp hr
  simp [batchRun, hp, hr]

/-- C3 (witness): a single unparseable file is skipped, not fatal. -/
theorem claim_C3_witness :
    batchRun [FileInput.mk none false ""] = some [Outcome.skipped] :=
  claim_C3_thm (FileInput.mk none false "") [] [] rfl rfl

/-- C4 (counterexample): the route for `home.aspx` is `/home`, not the
`/Home` the claim's capitalization rule would give. -/
theorem claim_C4_counterexample :
    routeOf "home.aspx" = "/home" ∧
    routeSpecClaim "home.aspx" = "/Home" ∧
    routeOf "home.aspx" ≠ routeSpecClaim "home.aspx" :=
  ⟨by decide, by decide, by decide⟩

/-- C4 (amended): the route is the input filename without extension
prefixed with `/`, with its casing unchanged. -/
theorem claim_C4_thm : ∀ (d stem ext : List Char),
    (∀ c ∈ stem, c ≠ '/') → (∀ c ∈ ext, c ≠ '/') → (∀ c ∈ ext, c ≠ '.') →
    (∃ c ∈ stem, c ≠ '.') →
    routeOf (String.mk (d ++ '/' :: (stem ++ '.' :: ext)))
      = "/" ++ String.mk stem := by
  intro d stem ext h1 h2 h3 h4
  have hs : ∀ c ∈ stem ++ '.' :: ext, c ≠ '/' := by
    intro c hc
    rcases List.mem_append.mp hc with h | h
    · exact h1 c h
    · rcases List.mem_cons.mp h with rfl | h
      · decide
      · exact h2 c h
  rw [routeOf,
    show (String.mk (d ++ '/' :: (stem ++ '.' :: ext))).data
      = d ++ '/' :: (stem ++ '.' :: ext) from rfl,
    basenameChars_append d _ hs, splitextRoot_append stem ext h4 h3]

/-- C4 (witness): `pages/home.aspx` routes to `/home`. -/
theorem claim_C4_witness :
    routeOf (String.mk ("pages".data ++ '/' :: ("home".data ++ '.' :: "aspx".data)))
      = "/" ++ String.mk "home".data :=
  claim_C4_thm "pages".data "home".data "aspx".data
    (by decide) (by decide) (by decide) (by decide)

/-- C5 (counterexample): the server-marker attribute is not stripped on
unmapped tags: a `div` with `runat="server"` passes through the whole
pipeline with the attribute intact. -/
theorem claim_C5_counterexample :
    convert_to_blazor [] []
        (parse_aspx_tree [Node.elem "div" [("runat", "server")] [Node.text "x"]])
      = some ([Node.elem "div" [("runat", "server")] [Node.text "x"]], []) ∧
    dictGet? "runat" [("runat", "server")] = some "server" := by
  refine ⟨?_, by decide⟩
  simp [convert_to_blazor, parse_aspx_tree, restoreTags, unwrapForms,
    convNodes, lookupMap, element_mapping, restoreName, mappingKeys,
    dictGet?, initSeen, pyLower]

/-- C5 (amended): a `form` whose server marker equals `"server"`
case-insensitively is unwrapped with its children spliced in order; a
forest free of server forms is left unchanged; and the marker is
stripped on every mapped control — but unmapped tags keep it. -/
theorem claim_C5_thm :
    (∀ (a : List (String × String)) (c rest : List Node),
      pyLower ((dictGet? "runat" a).getD "") = "server" →
      unwrapForms (Node.elem "form" a c :: rest)
        = unwrapForms c ++ unwrapForms rest) ∧
    (∀ ns : List Node, serverFormFree ns = true → unwrapForms ns = ns) ∧
    (∀ (events : List (String × String)) (m : CtrlMap)
        (a : List (String × String)) (st : ConvSt)
        (a' : List (String × String)) (st' : ConvSt),
      (∀ p ∈ m.attributes, ¬ p.2 = "runat") →
      (∀ ev, m.event? = some ev → ev ≠ "runat") →
      applyMapping events m a st = some (a', st') →
      dictGet? "runat" a' = none) := by
  refine ⟨unwrapForms_splice, unwrapForms_id, ?_⟩
  intro events m a st a' st' htgt hev h
  exact applyMapping_strips_runat events m a st htgt hev h

/-- C5 (witness): a server form with children a, b, c unwraps to
a, b, c. -/
theorem claim_C5_witness :
    unwrapForms [Node.elem "form" [("runat", "server")]
        [Node.text "a", Node.text "b", Node.text "c"]]
      = [Node.text "a", Node.text "b", Node.text "c"] := by
  rw [show ([Node.elem "form" [("runat", "server")]
      [Node.text "a", Node.text "b", Node.text "c"]] : List Node)
      = Node.elem "form" [("runat", "server")]
        [Node.text "a", Node.text "b", Node.text "c"] :: [] from rfl,
    claim_C5_thm.1 [("runat", "server")]
      [Node.text "a", Node.text "b", Node.text "c"] [] (by decide)]
  simp [unwrapForms]

/-- C6: the example scenario — the button markup with the `SaveClick`
code-behind produces a `button` element carrying `@bind-Value="Save"`
and `@onclick="SaveClick"`, one synthesized `Save` declaration, and a
code block holding that declaration followed by the `SaveClick`
stub. -/
theorem claim_C6_thm :
    parse_cs true exampleButtonCs
      = ([("SaveClick", eventStub "SaveClick")], []) ∧
    convert_to_blazor (parse_cs true exampleButtonCs).1
        (parse_cs true exampleButtonCs).2 (parse_aspx_tree exampleButtonTree)
      = some ([Node.elem "button"
          [("@bind-Value", "Save"), ("@onclick", "SaveClick")] []],
        [synthBody "Save"]) ∧
    code_block [synthBody "Save"] [("SaveClick", eventStub "SaveClick")]
      = "\n@code \x7b\n" ++ synthBody "Save" ++ "\n"
          ++ eventStub "SaveClick" ++ "\n\x7d\n" := by
  have hcs : parse_cs true exampleButtonCs
      = ([("SaveClick", eventStub "SaveClick")], []) := by decide
  refine ⟨hcs, ?_, by decide⟩
  rw [hcs]
  simp [convert_to_blazor, parse_aspx_tree, exampleButtonTree, restoreTags,
    unwrapForms, convNodes, applyMapping, processRenames, clickStep,
    clientStep, typeStep, lookupMap, element_mapping, restoreName,
    mappingKeys, dictGet?, dictSet, dictDel, initSeen, pyStrip, isIdent,
    hasKey, isWs, isWord, eventStub, synthBody, pyLower, pyStartsWith]

/-- The field portion of the code block as the specification describes
it: all field bodies joined by newlines, omitted when there are
none. -/
def fieldsPortion (props : List String) : String :=
  if props.isEmpty then "" else String.intercalate "\n" props ++ "\n"

/-- The event portion of the code block as the specification describes
it: all event-stub bodies in discovery order, omitted when there are
none. -/
def eventsPortion (events : List (String × String)) : String :=
  if events.isEmpty then ""
  else String.intercalate "\n" (events.map fun p => p.2) ++ "\n"

/-- C7: the assembled output is the preamble, the content, a newline,
and a code block whose wrapper markers are always present, containing
the field bodies in the order given followed by the event bodies in
discovery order; an empty list contributes nothing but the wrapper
remains. -/
theorem claim_C7_thm : ∀ (content route : String)
    (events : List (String × String)) (props : List String),
    save_blazor_file content events props route
      = preamble route ++ content ++ "\n"
        ++ ("\n@code \x7b\n" ++ fieldsPortion props ++ eventsPortion events
            ++ "\x7d\n") ∧
    fieldsPortion [] = "" ∧ eventsPortion [] = "" ∧
    save_blazor_file content [] [] route
      = preamble route ++ content ++ "\n" ++ "\n@code \x7b\n\x7d\n" := by
  intro content route events props
  refine ⟨?_, rfl, rfl, ?_⟩
  · simp [save_blazor_file, code_block, fieldsPortion, eventsPortion,
      String.append_assoc]
  · simp [save_blazor_file, code_block]

/-- C8: for every mapping key and every casing of it, the lowercased
tag name the parser leaves behind is restored to the canonical key. -/
theorem claim_C8_thm : ∀ k ∈ mappingKeys, ∀ (s : String),
    pyLower s = pyLower k →
    ∀ (attrs : List (String × String)) (children : List Node),
    restoreTags [Node.elem (pyLower s) attrs children]
      = [Node.elem k attrs (restoreTags children)] := by
  intro k hk s hs attrs children
  have hres : restoreName (pyLower k) = k := by
    have hkeys : mappingKeys = ["asp:Button", "asp:TextBox", "asp:Label",
        "asp:DropDownList", "asp:CheckBox", "asp:RadioButton",
        "asp:HyperLink", "asp:Image"] := rfl
    rw [hkeys] at hk
    simp only [List.mem_cons, List.not_mem_nil, or_false] at hk
    rcases hk with rfl | rfl | rfl | rfl | rfl | rfl | rfl | rfl <;> decide
  simp only [restoreTags]
  rw [hs, hres]

/-- C8 (witness): the all-caps casing of `asp:Button` restores to the
canonical key. -/
theorem claim_C8_witness :
    restoreTags [Node.elem (pyLower "ASP:BUTTON") [] []]
      = [Node.elem "asp:Button" [] (restoreTags [])] :=
  claim_C8_thm "asp:Button" (by decide) "ASP:BUTTON" (by decide) [] []

/-- C9: every property the rewriting pass adds is a synthesized
`public string <value> { get; set; }` body, whereas every declaration
`parse_cs` extracts keeps its declared type. -/
theorem claim_C9_thm :
    (∀ (events : List (String × String)) (ns : List Node) (st : ConvSt)
        (r : List Node × ConvSt), convNodes events ns st = some r →
      ∀ p ∈ r.2.props, p ∈ st.props ∨ ∃ v, p = synthBody v) ∧
    (∀ (ex : Bool) (code : String), ∀ p ∈ (parse_cs ex code).2,
      ∃ t n, p = fieldBody t n) := by
  constructor
  · intro events ns st r h p hp
    obtain ⟨vs, hpr, _, _, _⟩ := convNodes_state events ns st r h
    rw [hpr] at hp
    rcases List.mem_append.mp hp with h | h
    · exact Or.inl h
    · obtain ⟨v, _, rfl⟩ := List.mem_map.mp h
      exact Or.inr ⟨v, rfl⟩
  · intro ex code p hp
    cases ex with
    | false => exact absurd hp (by simp [parse_cs])
    | true =>
      have hprops : (parse_cs true code).2
          = (scanAll code.data.length matchField code.data).map
            (fun q => fieldBody (String.mk q.1) (String.mk q.2)) := rfl
      rw [hprops] at hp
      obtain ⟨q, _, rfl⟩ := List.mem_map.mp hp
      exact ⟨String.mk q.1, String.mk q.2, rfl⟩

/-- C9 (witness): a label bound to `T` synthesizes the fixed-type
body. -/
theorem claim_C9_witness :
    synthBody "T" ∈ (ConvSt.mk [] [] : ConvSt).props
      ∨ ∃ v, synthBody "T" = synthBody v :=
  claim_C9_thm.1 [] [Node.elem "asp:Label" [("text", "T")] []]
    (ConvSt.mk [] [])
    ([Node.elem "span" [("@bind-Value", "T")] []],
      ConvSt.mk [synthBody "T"] ["T"])
    (by simp [convNodes, applyMapping, processRenames, clickStep,
      clientStep, typeStep, lookupMap, element_mapping, dictGet?, dictSet,
      dictDel, pyLower, pyStartsWith, synthBody])
    (synthBody "T") (by simp)

/-- C10: on a mapped control whose onclick was not converted, the
client-click value overwrites the onclick attribute and the
client-click attribute disappears. -/
theorem claim_C10_thm : ∀ (events : List (String × String)) (m : CtrlMap)
    (a : List (String × String)) (st : ConvSt) (v w : String),
    NoClickRenames m →
    dictGet? "onclick" a = some v →
    ¬ (isIdent (pyStrip v) ∧ hasKey (pyStrip v) events) →
    dictGet? "onclientclick" a = some w →
    ∃ a' st', applyMapping events m a st = some (a', st') ∧
      dictGet? "onclick" a' = some w ∧
      dictGet? "onclientclick" a' = none :=
  fun events m a st v w hren hv hcond hw =>
    applyMapping_clientclick events m a st v w hren hv hcond hw

/-- C10 (witness): inline script in onclick is overwritten by the
client-click value on a button. -/
theorem claim_C10_witness :
    ∃ a' st', applyMapping []
        (CtrlMap.mk "button" [("Text", "@bind-Value")] none (some "@onclick"))
        [("onclick", "alert(1)"), ("onclientclick", "doFoo()")]
        (ConvSt.mk [] []) = some (a', st') ∧
      dictGet? "onclick" a' = some "doFoo()" ∧
      dictGet? "onclientclick" a' = none :=
  claim_C10_thm []
    (CtrlMap.mk "button" [("Text", "@bind-Value")] none (some "@onclick"))
    [("onclick", "alert(1)"), ("onclientclick", "doFoo()")]
    (ConvSt.mk [] []) "alert(1)" "doFoo()"
    (by decide) (by decide) (by decide) (by decide)

end Aspx2Blazor
